import Mathlib

/-!
Verification development for the university_tracker repository.

The repository is a Next.js frontend plus documentation for a Django backend.
The backend's financial-ledger subsystem (the append-only ledger_lines table,
the Transaction Writer, the Reversal Engine, the Balance Projector and the
rebuild_ledger management command described in README.md and in the spec) is
not part of the visible sources, so it is modelled here from the spec.
The frontend code (billing form, billing API client, billing detail page)
is embedded directly from the TypeScript sources.

Ledger monetary amounts are modelled as exact integers in minor currency
units: the spec fixes a single currency and exact fixed-point decimals, and
fixed-point decimals of one currency embed exactly into integer minor units.  Where the frontend computes with
JavaScript IEEE-754 binary64 numbers (parseFloat and number arithmetic), a
separate binary64 rounding model is used, see the Frontend namespace.
-/

namespace Ledger

/-- Modelled from the spec: classification of an account
(asset/liability/revenue/expense/equity); the backend account registry is not
under src/. -/
inductive AccountKind where
  | asset
  | liability
  | revenue
  | expense
  | equity
deriving DecidableEq

/-- Modelled from the spec: an account of the registry, an immutable identity
with a unique code; the backend account registry is not under src/. -/
structure Account where
  code : String
  kind : AccountKind
deriving DecidableEq

/-- Modelled from the spec: the direction of a ledger line. -/
inductive Direction where
  | debit
  | credit
deriving DecidableEq

/-- Modelled from the spec: one line of a transaction draft submitted to the
Transaction Writer; the backend writer is not under src/. -/
structure LineDraft where
  account_code : String
  direction : Direction
  amount : ℤ
deriving DecidableEq

/-- Modelled from the spec: a transaction draft submitted to the Transaction
Writer (source pointer, effective date, optional reversal reference, lines). -/
structure TransactionDraft where
  source_type : String
  source_id : ℕ
  effective_at : ℕ
  reversal_of : Option ℕ
  lines : List LineDraft
deriving DecidableEq

/-- Modelled from the spec: a persisted row of the append-only ledger_lines
table; the backend table is not under src/. -/
structure LedgerLine where
  id : ℕ
  transaction_id : ℕ
  account_code : String
  direction : Direction
  amount : ℤ
  sequence : ℕ
deriving DecidableEq

/-- Modelled from the spec: a persisted ledger transaction. `created_at` is
the append time; all lines of one transaction share it, because the append is
a single atomic unit of work. -/
structure LedgerTransaction where
  id : ℕ
  source_type : String
  source_id : ℕ
  effective_at : ℕ
  created_at : ℕ
  reversal_of : Option ℕ
  lines : List LedgerLine
deriving DecidableEq

/-- Modelled from the spec: the ledger store.  It holds the static account
registry, the append-only list of transactions, and the monotonic counters
used to assign ids and line sequences.  No balance is part of the state. -/
structure LedgerState where
  accounts : List Account
  transactions : List LedgerTransaction
  nextTxId : ℕ
  nextSeq : ℕ
deriving DecidableEq

/-- Modelled from the spec: the error taxonomy of the ledger subsystem. -/
inductive LedgerError where
  | imbalancedTransaction
  | unknownAccount
  | notFound
  | alreadyReversed
  | replayIntegrity
  | rebuildInProgress
deriving DecidableEq

/-- Sum of the amounts of the debit lines of a draft. -/
def debitTotal (lines : List LineDraft) : ℤ :=
  ((lines.filter (fun l => l.direction == Direction.debit)).map (fun l => l.amount)).sum

/-- Sum of the amounts of the credit lines of a draft. -/
def creditTotal (lines : List LineDraft) : ℤ :=
  ((lines.filter (fun l => l.direction == Direction.credit)).map (fun l => l.amount)).sum

/-- Sum of the amounts of the debit lines of a persisted transaction. -/
def txDebitTotal (t : LedgerTransaction) : ℤ :=
  ((t.lines.filter (fun l => l.direction == Direction.debit)).map (fun l => l.amount)).sum

/-- Sum of the amounts of the credit lines of a persisted transaction. -/
def txCreditTotal (t : LedgerTransaction) : ℤ :=
  ((t.lines.filter (fun l => l.direction == Direction.credit)).map (fun l => l.amount)).sum

/-- Whether an account with the given code exists in the registry. -/
def accountExists (s : LedgerState) (code : String) : Bool :=
  s.accounts.any (fun a => a.code == code)

/-- Persist the lines of a draft, assigning consecutive global sequence
numbers starting at `seq`. -/
def mkLines (txId : ℕ) : ℕ → List LineDraft → List LedgerLine
  | _, [] => []
  | seq, d :: ds =>
    { id := seq, transaction_id := txId, account_code := d.account_code,
      direction := d.direction, amount := d.amount, sequence := seq } :: mkLines txId (seq + 1) ds

/-- The persisted transaction built from a draft in state `s`. -/
def mkTx (s : LedgerState) (d : TransactionDraft) : LedgerTransaction :=
  { id := s.nextTxId, source_type := d.source_type, source_id := d.source_id,
    effective_at := d.effective_at, created_at := s.nextTxId,
    reversal_of := d.reversal_of, lines := mkLines s.nextTxId s.nextSeq d.lines }

/-- Modelled from the spec: the Transaction Writer's append operation (the
backend writer is not under src/).  Validation runs in order: (a) at least
two lines, (b) every amount strictly positive, (c) debit sum equals credit
sum exactly, (d) every referenced account exists.  Failures in (a)-(c) yield
an ImbalancedTransactionError, failure in (d) an UnknownAccountError; on
failure nothing is written.  On success the transaction is appended with a
fresh id and consecutive sequence numbers. -/
def append (s : LedgerState) (d : TransactionDraft) :
    Except LedgerError (LedgerState × LedgerTransaction) :=
  if d.lines.length < 2 then .error .imbalancedTransaction
  else if d.lines.any (fun l => decide (l.amount ≤ 0)) then .error .imbalancedTransaction
  else if debitTotal d.lines ≠ creditTotal d.lines then .error .imbalancedTransaction
  else if d.lines.any (fun l => !accountExists s l.account_code) then .error .unknownAccount
  else
    let tx := mkTx s d
    .ok ({ s with transactions := s.transactions ++ [tx],
                  nextTxId := s.nextTxId + 1,
                  nextSeq := s.nextSeq + d.lines.length }, tx)

/-- Flip debit to credit and credit to debit. -/
def flipDirection : Direction → Direction
  | .debit => .credit
  | .credit => .debit

/-- The reversal draft of a persisted transaction: the exact set of its lines
with direction flipped, same accounts and amounts, reversal_of set. -/
def reverseDraft (t : LedgerTransaction) : TransactionDraft :=
  { source_type := t.source_type, source_id := t.source_id,
    effective_at := t.effective_at, reversal_of := some t.id,
    lines := t.lines.map (fun l =>
      { account_code := l.account_code, direction := flipDirection l.direction,
        amount := l.amount }) }

/-- Look up a transaction by id. -/
def findTx (s : LedgerState) (txId : ℕ) : Option LedgerTransaction :=
  s.transactions.find? (fun t => t.id == txId)

/-- Whether some persisted transaction already reverses the given one. -/
def alreadyReversed (s : LedgerState) (txId : ℕ) : Bool :=
  s.transactions.any (fun t => t.reversal_of == some txId)

/-- Modelled from the spec: the Reversal Engine (the backend engine is not
under src/).  Looks up the target, fails with NotFoundError if absent and
with AlreadyReversedError if a reversal already references it, and otherwise
submits the flipped draft to the Transaction Writer. -/
def reverse (s : LedgerState) (txId : ℕ) :
    Except LedgerError (LedgerState × LedgerTransaction) :=
  match findTx s txId with
  | none => .error .notFound
  | some t =>
    if alreadyReversed s txId then .error .alreadyReversed
    else append s (reverseDraft t)

/-- Signed value of a line: debits count positively, credits negatively. -/
def lineSigned (l : LedgerLine) : ℤ :=
  match l.direction with
  | .debit => l.amount
  | .credit => -l.amount

/-- Signed contribution of a list of lines to one account. -/
def linesContribution (ls : List LedgerLine) (code : String) : ℤ :=
  ((ls.filter (fun l => l.account_code == code)).map lineSigned).sum

/-- Modelled from the spec: the Balance Projector (the backend projector is
not under src/).  The balance of an account as of a cutoff is the fold of the
signed lines of all transactions appended no later than the cutoff; it reads
nothing but the transaction log. -/
def balance (s : LedgerState) (code : String) (asOf : ℕ) : ℤ :=
  ((s.transactions.filter (fun t => decide (t.created_at ≤ asOf))).map
    (fun t => linesContribution t.lines code)).sum

/-- Modelled from the spec: the trial balance, the sum of all account
balances as of a cutoff. -/
def trialBalance (s : LedgerState) (asOf : ℕ) : ℤ :=
  (s.accounts.map (fun a => balance s a.code asOf)).sum

/-- The trial balance with no cutoff: every persisted transaction counts. -/
def trialBalanceNow (s : LedgerState) : ℤ :=
  trialBalance s s.nextTxId

/-- Modelled from the spec: a domain event enumerated by a Source Adapter for
replay; the backend adapters are not under src/. -/
structure SourceEvent where
  source_type : String
  source_id : ℕ
  effective_at : ℕ
  reversal_of : Option ℕ
  lines : List LineDraft
deriving DecidableEq

/-- The draft a source event submits to the Transaction Writer. -/
def toDraft (e : SourceEvent) : TransactionDraft :=
  { source_type := e.source_type, source_id := e.source_id,
    effective_at := e.effective_at, reversal_of := e.reversal_of,
    lines := e.lines }

/-- Replay order on events: lexicographic on
(effective_at, source_type, source_id). -/
def eventLe (a b : SourceEvent) : Bool :=
  decide (a.effective_at < b.effective_at) ||
    (a.effective_at == b.effective_at &&
      (decide (a.source_type < b.source_type) ||
        (a.source_type == b.source_type && decide (a.source_id ≤ b.source_id))))

/-- Insert an event into a list sorted by `eventLe`. -/
def insertEvent (e : SourceEvent) : List SourceEvent → List SourceEvent
  | [] => [e]
  | x :: xs => if eventLe e x then e :: x :: xs else x :: insertEvent e xs

/-- Merge the adapters' streams into one deterministic global order by
sorting on (effective_at, source_type, source_id). -/
def sortEvents : List SourceEvent → List SourceEvent
  | [] => []
  | x :: xs => insertEvent x (sortEvents xs)

/-- An empty ledger over a fixed account registry: the state right after
truncation. -/
def initLedger (accs : List Account) : LedgerState :=
  { accounts := accs, transactions := [], nextTxId := 0, nextSeq := 0 }

/-- Replay a list of events through the Transaction Writer, in order, exactly
once each; any writer failure aborts the run with ReplayIntegrityError. -/
def replay (s : LedgerState) : List SourceEvent → Except LedgerError LedgerState
  | [] => .ok s
  | e :: es =>
    match append s (toDraft e) with
    | .error _ => .error .replayIntegrity
    | .ok (s1, _) => replay s1 es

/-- Modelled from the spec: the Rebuild/Replay Engine of the rebuild_ledger
command (the backend command is not under src/).  Truncates, replays the
merged event history in deterministic order through the Transaction Writer,
then verifies that the trial balance is zero; a nonzero trial balance moves
the run to Failed with ReplayIntegrityError. -/
def rebuildLedger (accs : List Account) (evs : List SourceEvent) :
    Except LedgerError LedgerState :=
  match replay (initLedger accs) (sortEvents evs) with
  | .error e => .error e
  | .ok s1 => if trialBalanceNow s1 = 0 then .ok s1 else .error .replayIntegrity

/-- Run a full rebuild against a live state: truncation keeps only the
account registry, then the whole history is replayed. -/
def doRebuild (s : LedgerState) (evs : List SourceEvent) :
    Except LedgerError LedgerState :=
  rebuildLedger s.accounts evs

/-- Total number of persisted lines. -/
def totalLines (s : LedgerState) : ℕ :=
  (s.transactions.map (fun t => t.lines.length)).sum

/-- One step of the ledger subsystem: a successful live append, a successful
reversal, or a successful full rebuild.  These are the only operations the
subsystem exposes over the store. -/
inductive Step : LedgerState → LedgerState → Prop where
  | append_ok {s s1 : LedgerState} {d : TransactionDraft} {t : LedgerTransaction}
      (h : append s d = .ok (s1, t)) : Step s s1
  | reverse_ok {s s1 : LedgerState} {txId : ℕ} {t : LedgerTransaction}
      (h : reverse s txId = .ok (s1, t)) : Step s s1
  | rebuild_ok {s s1 : LedgerState} {evs : List SourceEvent}
      (h : doRebuild s evs = .ok s1) : Step s s1

/-- Reachable ledger states: bootstrapped with a registry of distinct account
codes, then closed under the subsystem's operations. -/
inductive Reachable : LedgerState → Prop where
  | init (accs : List Account) (h : (accs.map Account.code).Nodup) :
      Reachable (initLedger accs)
  | step {s s1 : LedgerState} (hs : Reachable s) (h : Step s s1) : Reachable s1


/-- Signed value of a draft line: debits positive, credits negative. -/
def draftSigned (l : LineDraft) : ℤ :=
  match l.direction with
  | .debit => l.amount
  | .credit => -l.amount

/-- Signed contribution of a draft's lines to one account. -/
def draftContribution (ds : List LineDraft) (code : String) : ℤ :=
  ((ds.filter (fun l => l.account_code == code)).map draftSigned).sum

theorem length_mkLines (txId : ℕ) (seq : ℕ) (ds : List LineDraft) :
    (mkLines txId seq ds).length = ds.length := by
  induction ds generalizing seq with
  | nil => rfl
  | cons d ds ih => simp [mkLines, ih]

theorem mem_mkLines {txId seq : ℕ} {ds : List LineDraft} {l : LedgerLine}
    (h : l ∈ mkLines txId seq ds) :
    ∃ dl ∈ ds, l.account_code = dl.account_code ∧ l.direction = dl.direction ∧
      l.amount = dl.amount := by
  induction ds generalizing seq with
  | nil => simp [mkLines] at h
  | cons d ds ih =>
    simp only [mkLines, List.mem_cons] at h
    rcases h with h | h
    · exact ⟨d, by simp, by simp [h]⟩
    · obtain ⟨dl, hdl, hprops⟩ := ih h
      exact ⟨dl, List.mem_cons_of_mem _ hdl, hprops⟩

theorem mkLines_debitTotal (txId seq : ℕ) (ds : List LineDraft) :
    (((mkLines txId seq ds).filter (fun l => l.direction == Direction.debit)).map
      (fun l => l.amount)).sum = debitTotal ds := by
  induction ds generalizing seq with
  | nil => rfl
  | cons d ds ih =>
    have h := ih (seq + 1)
    simp only [debitTotal] at h ⊢
    simp only [mkLines, List.filter_cons]
    by_cases hd : d.direction = Direction.debit <;> simp [hd, h]

theorem mkLines_creditTotal (txId seq : ℕ) (ds : List LineDraft) :
    (((mkLines txId seq ds).filter (fun l => l.direction == Direction.credit)).map
      (fun l => l.amount)).sum = creditTotal ds := by
  induction ds generalizing seq with
  | nil => rfl
  | cons d ds ih =>
    have h := ih (seq + 1)
    simp only [creditTotal] at h ⊢
    simp only [mkLines, List.filter_cons]
    by_cases hd : d.direction = Direction.credit <;> simp [hd, h]

theorem mkLines_contribution (txId seq : ℕ) (ds : List LineDraft) (code : String) :
    linesContribution (mkLines txId seq ds) code = draftContribution ds code := by
  induction ds generalizing seq with
  | nil => rfl
  | cons d ds ih =>
    have h := ih (seq + 1)
    simp only [linesContribution, draftContribution] at h ⊢
    simp only [mkLines, List.filter_cons]
    by_cases hc : d.account_code = code <;> simp [hc, h, lineSigned, draftSigned]

theorem txDebitTotal_mkTx (s : LedgerState) (d : TransactionDraft) :
    txDebitTotal (mkTx s d) = debitTotal d.lines := by
  simp [txDebitTotal, mkTx, mkLines_debitTotal]

theorem txCreditTotal_mkTx (s : LedgerState) (d : TransactionDraft) :
    txCreditTotal (mkTx s d) = creditTotal d.lines := by
  simp [txCreditTotal, mkTx, mkLines_creditTotal]

/-- Characterization of a successful append: all four validations hold, the
persisted transaction is the draft stamped with fresh id and sequences, and
the new state is the old one with exactly that transaction appended. -/
theorem append_ok_iff {s : LedgerState} {d : TransactionDraft} {s1 : LedgerState}
    {t : LedgerTransaction} :
    append s d = .ok (s1, t) ↔
      2 ≤ d.lines.length ∧ (∀ l ∈ d.lines, 0 < l.amount) ∧
      debitTotal d.lines = creditTotal d.lines ∧
      (∀ l ∈ d.lines, accountExists s l.account_code = true) ∧
      t = mkTx s d ∧
      s1 = { s with transactions := s.transactions ++ [mkTx s d],
                    nextTxId := s.nextTxId + 1,
                    nextSeq := s.nextSeq + d.lines.length } := by
  unfold append
  split
  · rename_i hlen
    simp only [reduceCtorEq, false_iff]
    intro h
    omega
  · split
    · rename_i hlen hneg
      simp only [reduceCtorEq, false_iff]
      intro h
      simp only [List.any_eq_true, decide_eq_true_eq] at hneg
      obtain ⟨l, hl, hle⟩ := hneg
      exact absurd (h.2.1 l hl) (by omega)
    · split
      · rename_i hlen hneg hbal
        simp only [reduceCtorEq, false_iff]
        intro h
        exact hbal h.2.2.1
      · split
        · rename_i hlen hneg hbal hacc
          simp only [reduceCtorEq, false_iff]
          intro h
          simp only [List.any_eq_true, Bool.not_eq_true'] at hacc
          obtain ⟨l, hl, hfalse⟩ := hacc
          rw [h.2.2.2.1 l hl] at hfalse
          exact absurd hfalse (by simp)
        · rename_i hlen hneg hbal hacc
          simp only [Except.ok.injEq, Prod.mk.injEq]
          constructor
          · rintro ⟨hs1, ht⟩
            refine ⟨by omega, ?_, by simpa using hbal, ?_, ht.symm, hs1.symm⟩
            · intro l hl
              simp only [List.any_eq_true, decide_eq_true_eq, not_exists, not_and] at hneg
              have := hneg l hl
              omega
            · intro l hl
              simp only [List.any_eq_true, Bool.not_eq_true', not_exists, not_and] at hacc
              have := hacc l hl
              simp only [Bool.not_eq_false] at this
              exact this
          · rintro ⟨-, -, -, -, ht, hs1⟩
            exact ⟨hs1.symm, ht.symm⟩

/-- The well-formedness invariant the Writer maintains over the store. -/
structure WF (s : LedgerState) : Prop where
  nodup_codes : (s.accounts.map Account.code).Nodup
  balanced : ∀ t ∈ s.transactions, txDebitTotal t = txCreditTotal t
  accounts_valid : ∀ t ∈ s.transactions, ∀ l ∈ t.lines, accountExists s l.account_code = true
  lines_pos : ∀ t ∈ s.transactions, ∀ l ∈ t.lines, 0 < l.amount
  lines_len : ∀ t ∈ s.transactions, 2 ≤ t.lines.length
  ids_lt : ∀ t ∈ s.transactions, t.id < s.nextTxId
  created_lt : ∀ t ∈ s.transactions, t.created_at < s.nextTxId
  ids_nodup : (s.transactions.map LedgerTransaction.id).Nodup

theorem accountExists_of_accounts_eq {s s1 : LedgerState} (h : s1.accounts = s.accounts)
    (code : String) : accountExists s1 code = accountExists s code := by
  simp [accountExists, h]

theorem WF.append {s : LedgerState} {d : TransactionDraft} {s1 : LedgerState}
    {t : LedgerTransaction} (hwf : WF s) (h : append s d = .ok (s1, t)) : WF s1 := by
  rw [append_ok_iff] at h
  obtain ⟨hlen, hpos, hbal, hacc, ht, hs1⟩ := h
  have haccs : s1.accounts = s.accounts := by rw [hs1]
  have hex : ∀ code, accountExists s1 code = accountExists s code :=
    accountExists_of_accounts_eq haccs
  have htx : ∀ u ∈ s1.transactions, u ∈ s.transactions ∨ u = mkTx s d := by
    intro u hu
    rw [hs1] at hu
    simpa using hu
  refine ⟨?_, ?_, ?_, ?_, ?_, ?_, ?_, ?_⟩
  · rw [haccs]; exact hwf.nodup_codes
  · intro u hu
    rcases htx u hu with hu' | hu'
    · exact hwf.balanced u hu'
    · rw [hu', txDebitTotal_mkTx, txCreditTotal_mkTx]; exact hbal
  · intro u hu l hl
    rw [hex]
    rcases htx u hu with hu' | hu'
    · exact hwf.accounts_valid u hu' l hl
    · rw [hu'] at hl
      obtain ⟨dl, hdl, hc, -, -⟩ := mem_mkLines hl
      rw [hc]
      exact hacc dl hdl
  · intro u hu l hl
    rcases htx u hu with hu' | hu'
    · exact hwf.lines_pos u hu' l hl
    · rw [hu'] at hl
      obtain ⟨dl, hdl, -, -, ha⟩ := mem_mkLines hl
      rw [ha]
      exact hpos dl hdl
  · intro u hu
    rcases htx u hu with hu' | hu'
    · exact hwf.lines_len u hu'
    · rw [hu']
      simpa [mkTx, length_mkLines] using hlen
  · intro u hu
    have hn : s1.nextTxId = s.nextTxId + 1 := by rw [hs1]
    rw [hn]
    rcases htx u hu with hu' | hu'
    · exact Nat.lt_succ_of_lt (hwf.ids_lt u hu')
    · rw [hu']
      simp [mkTx]
  · intro u hu
    have hn : s1.nextTxId = s.nextTxId + 1 := by rw [hs1]
    rw [hn]
    rcases htx u hu with hu' | hu'
    · exact Nat.lt_succ_of_lt (hwf.created_lt u hu')
    · rw [hu']
      simp [mkTx]
  · have hl : s1.transactions = s.transactions ++ [mkTx s d] := by rw [hs1]
    rw [hl, List.map_append, List.nodup_append]
    refine ⟨hwf.ids_nodup, by simp, ?_⟩
    intro i hi
    simp only [List.map_cons, List.map_nil, List.mem_singleton]
    intro hcontra
    simp only [List.mem_map] at hi
    obtain ⟨u, hu, hui⟩ := hi
    have := hwf.ids_lt u hu
    rw [hui] at this
    rw [hcontra] at this
    simp [mkTx] at this

theorem reverse_ok_elim {s : LedgerState} {txId : ℕ} {s1 : LedgerState}
    {t1 : LedgerTransaction} (h : reverse s txId = .ok (s1, t1)) :
    ∃ t0, findTx s txId = some t0 ∧ alreadyReversed s txId = false ∧
      append s (reverseDraft t0) = .ok (s1, t1) := by
  unfold reverse at h
  split at h
  · simp at h
  · rename_i t0 hf
    split at h
    · simp at h
    · rename_i hr
      exact ⟨t0, hf, by simpa using hr, h⟩

theorem WF.reverse {s : LedgerState} {txId : ℕ} {s1 : LedgerState}
    {t1 : LedgerTransaction} (hwf : WF s) (h : reverse s txId = .ok (s1, t1)) : WF s1 := by
  obtain ⟨t0, -, -, ha⟩ := reverse_ok_elim h
  exact hwf.append ha

theorem replay_accounts {evs : List SourceEvent} : ∀ {s s1 : LedgerState},
    replay s evs = .ok s1 → s1.accounts = s.accounts := by
  induction evs with
  | nil =>
    intro s s1 h
    simp only [replay, Except.ok.injEq] at h
    rw [← h]
  | cons e es ih =>
    intro s s1 h
    simp only [replay] at h
    cases ha : append s (toDraft e) with
    | error err => rw [ha] at h; simp at h
    | ok p =>
      obtain ⟨s2, t2⟩ := p
      rw [ha] at h
      have h2 := ih h
      have haccs : s2.accounts = s.accounts := by
        rw [append_ok_iff] at ha
        rw [ha.2.2.2.2.2]
      rw [h2, haccs]

theorem replay_wf {evs : List SourceEvent} : ∀ {s s1 : LedgerState},
    WF s → replay s evs = .ok s1 → WF s1 := by
  induction evs with
  | nil =>
    intro s s1 hwf h
    simp only [replay, Except.ok.injEq] at h
    rw [← h]
    exact hwf
  | cons e es ih =>
    intro s s1 hwf h
    simp only [replay] at h
    cases ha : append s (toDraft e) with
    | error err => rw [ha] at h; simp at h
    | ok p =>
      obtain ⟨s2, t2⟩ := p
      rw [ha] at h
      exact ih (hwf.append ha) h

theorem WF.initLedger (accs : List Account) (h : (accs.map Account.code).Nodup) :
    WF (initLedger accs) := by
  refine ⟨h, ?_, ?_, ?_, ?_, ?_, ?_, ?_⟩ <;> simp [Ledger.initLedger]

theorem rebuildLedger_ok_elim {accs : List Account} {evs : List SourceEvent}
    {s1 : LedgerState} (h : rebuildLedger accs evs = .ok s1) :
    replay (initLedger accs) (sortEvents evs) = .ok s1 ∧ trialBalanceNow s1 = 0 := by
  unfold rebuildLedger at h
  split at h
  · simp at h
  · rename_i s2 hrep
    split at h
    · rename_i hz
      simp only [Except.ok.injEq] at h
      rw [← h]
      exact ⟨hrep, hz⟩
    · simp at h

theorem rebuildLedger_accounts {accs : List Account} {evs : List SourceEvent}
    {s1 : LedgerState} (h : rebuildLedger accs evs = .ok s1) : s1.accounts = accs :=
  replay_accounts (rebuildLedger_ok_elim h).1

theorem WF.rebuild {s : LedgerState} {evs : List SourceEvent} {s1 : LedgerState}
    (hn : (s.accounts.map Account.code).Nodup) (h : doRebuild s evs = .ok s1) : WF s1 :=
  replay_wf (WF.initLedger s.accounts hn) (rebuildLedger_ok_elim h).1

/-- Every reachable ledger state is well-formed: all invariants are enforced
at append time and preserved by every operation. -/
theorem reachable_wf {s : LedgerState} (h : Reachable s) : WF s := by
  induction h with
  | init accs hn => exact WF.initLedger accs hn
  | step hs hstep ih =>
    cases hstep with
    | append_ok ha => exact ih.append ha
    | reverse_ok hr => exact ih.reverse hr
    | rebuild_ok hb => exact WF.rebuild ih.nodup_codes hb

theorem findTx_of_mem_aux {t : LedgerTransaction} : ∀ (l : List LedgerTransaction),
    (l.map LedgerTransaction.id).Nodup → t ∈ l →
    l.find? (fun x => x.id == t.id) = some t := by
  intro l
  induction l with
  | nil => intro _ h; simp at h
  | cons u l ih =>
    intro hnodup hmem
    rw [List.map_cons, List.nodup_cons] at hnodup
    rcases List.mem_cons.mp hmem with h | h
    · rw [← h]
      simp [List.find?_cons]
    · have hne : (u.id == t.id) = false := by
        have : t.id ∈ l.map LedgerTransaction.id := List.mem_map_of_mem _ h
        simp only [beq_eq_false_iff_ne, ne_eq]
        intro hcontra
        rw [hcontra] at hnodup
        exact hnodup.1 this
      rw [List.find?_cons, hne]
      exact ih hnodup.2 h

theorem findTx_of_mem {s : LedgerState} {t : LedgerTransaction} (hwf : WF s)
    (ht : t ∈ s.transactions) : findTx s t.id = some t :=
  findTx_of_mem_aux s.transactions hwf.ids_nodup ht

theorem sum_map_add_int {α : Type} (l : List α) (f g : α → ℤ) :
    (l.map (fun x => f x + g x)).sum = (l.map f).sum + (l.map g).sum := by
  induction l with
  | nil => simp
  | cons x l ih =>
    simp only [List.map_cons, List.sum_cons, ih]
    ring

theorem sum_comm_int {α β : Type} (xs : List α) (ys : List β) (f : α → β → ℤ) :
    (xs.map (fun x => (ys.map (f x)).sum)).sum
      = (ys.map (fun y => (xs.map (fun x => f x y)).sum)).sum := by
  induction xs with
  | nil => simp
  | cons x xs ih =>
    simp only [List.map_cons, List.sum_cons, ih, sum_map_add_int]

theorem linesContribution_eq_ite (ls : List LedgerLine) (code : String) :
    linesContribution ls code
      = (ls.map (fun l => if l.account_code = code then lineSigned l else 0)).sum := by
  induction ls with
  | nil => rfl
  | cons l ls ih =>
    have h := ih
    simp only [linesContribution] at h ⊢
    simp only [List.filter_cons, List.map_cons, List.sum_cons]
    by_cases hc : l.account_code = code <;> simp [hc, h]

theorem sum_lineSigned (ls : List LedgerLine) :
    (ls.map lineSigned).sum
      = ((ls.filter (fun l => l.direction == Direction.debit)).map (fun l => l.amount)).sum
        - ((ls.filter (fun l => l.direction == Direction.credit)).map (fun l => l.amount)).sum := by
  induction ls with
  | nil => simp
  | cons l ls ih =>
    cases hd : l.direction <;>
      simp [List.filter_cons, hd, lineSigned, ih] <;> ring

theorem sum_ite_single (c : String) (x : ℤ) : ∀ (accs : List Account),
    (accs.map Account.code).Nodup → (∃ a ∈ accs, a.code = c) →
    (accs.map (fun a => if c = a.code then x else 0)).sum = x := by
  intro accs
  induction accs with
  | nil => intro _ hmem; simp at hmem
  | cons a accs ih =>
    intro hn hmem
    rw [List.map_cons, List.nodup_cons] at hn
    by_cases h : c = a.code
    · simp only [List.map_cons, List.sum_cons, if_pos h]
      have hz : ∀ b ∈ accs, (if c = b.code then x else 0) = 0 := by
        intro b hb
        rw [if_neg]
        intro hcontra
        rw [hcontra] at h
        rw [← h] at hn
        exact hn.1 (List.mem_map_of_mem _ hb)
      have : (accs.map (fun a => if c = a.code then x else 0)).sum = 0 := by
        apply List.sum_eq_zero
        intro y hy
        obtain ⟨b, hb, hby⟩ := List.mem_map.mp hy
        rw [← hby]
        exact hz b hb
      rw [this]
      ring
    · simp only [List.map_cons, List.sum_cons, if_neg h, zero_add]
      apply ih hn.2
      obtain ⟨b, hb, hbc⟩ := hmem
      rcases List.mem_cons.mp hb with hb' | hb'
      · rw [hb'] at hbc
        exact absurd hbc.symm h
      · exact ⟨b, hb', hbc⟩

theorem sum_contribution_over_accounts (accs : List Account)
    (hn : (accs.map Account.code).Nodup) (ls : List LedgerLine)
    (hv : ∀ l ∈ ls, ∃ a ∈ accs, a.code = l.account_code) :
    (accs.map (fun a => linesContribution ls a.code)).sum = (ls.map lineSigned).sum := by
  have h1 : (accs.map (fun a => linesContribution ls a.code)).sum
      = (accs.map (fun a =>
          (ls.map (fun l => if l.account_code = a.code then lineSigned l else 0)).sum)).sum := by
    apply congrArg
    apply List.map_congr_left
    intro a _
    exact linesContribution_eq_ite ls a.code
  rw [h1, sum_comm_int]
  apply congrArg
  apply List.map_congr_left
  intro l hl
  exact sum_ite_single l.account_code (lineSigned l) accs hn (hv l hl)

theorem sum_lineSigned_eq_zero {t : LedgerTransaction}
    (hb : txDebitTotal t = txCreditTotal t) : (t.lines.map lineSigned).sum = 0 := by
  rw [sum_lineSigned]
  unfold txDebitTotal txCreditTotal at hb
  omega

theorem accountExists_mem {s : LedgerState} {code : String}
    (h : accountExists s code = true) : ∃ a ∈ s.accounts, a.code = code := by
  simp only [accountExists, List.any_eq_true, beq_iff_eq] at h
  exact h

/-- The trial balance of any well-formed ledger state is zero at every
cutoff. -/
theorem trialBalance_zero_of_wf {s : LedgerState} (hwf : WF s) (asOf : ℕ) :
    trialBalance s asOf = 0 := by
  unfold trialBalance balance
  rw [sum_comm_int]
  apply List.sum_eq_zero
  intro y hy
  obtain ⟨t, ht, hty⟩ := List.mem_map.mp hy
  have htmem : t ∈ s.transactions := List.mem_of_mem_filter ht
  rw [← hty]
  have hv : ∀ l ∈ t.lines, ∃ a ∈ s.accounts, a.code = l.account_code := by
    intro l hl
    exact accountExists_mem (hwf.accounts_valid t htmem l hl)
  rw [sum_contribution_over_accounts s.accounts hwf.nodup_codes t.lines hv]
  exact sum_lineSigned_eq_zero (hwf.balanced t htmem)

/-- Rebuild depends only on the account registry and the event history, and
preserves the registry, so a second run reproduces the first result. -/
theorem doRebuild_idem {s s1 : LedgerState} {evs : List SourceEvent}
    (h : doRebuild s evs = .ok s1) : doRebuild s1 evs = .ok s1 := by
  unfold doRebuild at h ⊢
  rw [rebuildLedger_accounts h]
  exact h

theorem sum_map_neg_int {α : Type} (l : List α) (f : α → ℤ) :
    (l.map (fun x => - f x)).sum = - (l.map f).sum := by
  induction l with
  | nil => simp
  | cons x l ih =>
    simp only [List.map_cons, List.sum_cons, ih]
    ring

theorem draftContribution_flip (code : String) (ls : List LedgerLine) :
    draftContribution (ls.map (fun l =>
      { account_code := l.account_code, direction := flipDirection l.direction,
        amount := l.amount })) code = - linesContribution ls code := by
  unfold draftContribution linesContribution
  rw [List.filter_map, List.map_map]
  have hp : (ls.filter ((fun l : LineDraft => l.account_code == code) ∘
      (fun l : LedgerLine => (⟨l.account_code, flipDirection l.direction, l.amount⟩ : LineDraft))))
      = ls.filter (fun l => l.account_code == code) := by
    apply List.filter_congr
    intro l _
    rfl
  rw [hp]
  have hf : (draftSigned ∘ (fun l : LedgerLine =>
      (⟨l.account_code, flipDirection l.direction, l.amount⟩ : LineDraft)))
      = fun l => - lineSigned l := by
    funext l
    cases hd : l.direction <;> simp [draftSigned, lineSigned, flipDirection, hd, Function.comp]
  rw [hf, sum_map_neg_int]

theorem debitTotal_flipMap (ls : List LedgerLine) :
    debitTotal (ls.map (fun l =>
      { account_code := l.account_code, direction := flipDirection l.direction,
        amount := l.amount }))
      = ((ls.filter (fun l => l.direction == Direction.credit)).map (fun l => l.amount)).sum := by
  unfold debitTotal
  rw [List.filter_map, List.map_map]
  have hp : (ls.filter ((fun l : LineDraft => l.direction == Direction.debit) ∘
      (fun l : LedgerLine => (⟨l.account_code, flipDirection l.direction, l.amount⟩ : LineDraft))))
      = ls.filter (fun l => l.direction == Direction.credit) := by
    apply List.filter_congr
    intro l _
    cases hd : l.direction <;> simp [flipDirection, hd, Function.comp]
  rw [hp]
  rfl

theorem creditTotal_flipMap (ls : List LedgerLine) :
    creditTotal (ls.map (fun l =>
      { account_code := l.account_code, direction := flipDirection l.direction,
        amount := l.amount }))
      = ((ls.filter (fun l => l.direction == Direction.debit)).map (fun l => l.amount)).sum := by
  unfold creditTotal
  rw [List.filter_map, List.map_map]
  have hp : (ls.filter ((fun l : LineDraft => l.direction == Direction.credit) ∘
      (fun l : LedgerLine => (⟨l.account_code, flipDirection l.direction, l.amount⟩ : LineDraft))))
      = ls.filter (fun l => l.direction == Direction.debit) := by
    apply List.filter_congr
    intro l _
    cases hd : l.direction <;> simp [flipDirection, hd, Function.comp]
  rw [hp]
  rfl

theorem mkLines_proj (txId : ℕ) (seq : ℕ) (ds : List LineDraft) :
    (mkLines txId seq ds).map (fun l => (l.account_code, l.direction, l.amount))
      = ds.map (fun d => (d.account_code, d.direction, d.amount)) := by
  induction ds generalizing seq with
  | nil => rfl
  | cons d ds ih => simp [mkLines, ih (seq + 1)]

/-- On a well-formed state, reversing a persisted, not-yet-reversed
transaction succeeds and appends exactly the flipped transaction. -/
theorem reverse_ok_of {s : LedgerState} {t : LedgerTransaction} (hwf : WF s)
    (ht : t ∈ s.transactions) (hnr : alreadyReversed s t.id = false) :
    reverse s t.id = .ok
      ({ s with transactions := s.transactions ++ [mkTx s (reverseDraft t)],
                nextTxId := s.nextTxId + 1,
                nextSeq := s.nextSeq + (reverseDraft t).lines.length },
       mkTx s (reverseDraft t)) := by
  unfold reverse
  rw [findTx_of_mem hwf ht, hnr]
  simp only [Bool.false_eq_true, if_false]
  rw [append_ok_iff]
  refine ⟨?_, ?_, ?_, ?_, rfl, rfl⟩
  · simpa [reverseDraft] using hwf.lines_len t ht
  · intro l hl
    simp only [reverseDraft, List.mem_map] at hl
    obtain ⟨l0, hl0, hleq⟩ := hl
    rw [← hleq]
    exact hwf.lines_pos t ht l0 hl0
  · show debitTotal (reverseDraft t).lines = creditTotal (reverseDraft t).lines
    simp only [reverseDraft]
    rw [debitTotal_flipMap, creditTotal_flipMap]
    have hb := hwf.balanced t ht
    unfold txDebitTotal txCreditTotal at hb
    omega
  · intro l hl
    simp only [reverseDraft, List.mem_map] at hl
    obtain ⟨l0, hl0, hleq⟩ := hl
    rw [← hleq]
    exact hwf.accounts_valid t ht l0 hl0

end Ledger

namespace Frontend

/-!
Embedding of the frontend TypeScript sources:
src/frontend/src/service/api/billings.ts, src/frontend/src/types/batch.ts,
the billing form component (src/unnamed/part_002, also part_001), and the
billing detail page (src/frontend/src/app/(dashboard)/billings/[id]/page.tsx).
-/

/-- HTTP method of an apiFetch call. -/
inductive HttpMethod where
  | get
  | post
  | patch
  | delete
deriving DecidableEq

/-- One exported operation of the billings API client. -/
structure ApiOperation where
  name : String
  method : HttpMethod
  path : String
deriving DecidableEq

/-- The full export surface of src/frontend/src/service/api/billings.ts:
each function's HTTP method and path template. -/
def billingApiOperations : List ApiOperation :=
  [ ⟨"getBillings", .get, "/billings/"⟩,
    ⟨"getBilling", .get, "/billings/:id/"⟩,
    ⟨"createBilling", .post, "/billings/"⟩,
    ⟨"updateBilling", .patch, "/billings/:id/"⟩,
    ⟨"publishBilling", .post, "/billings/:id/publish/"⟩,
    ⟨"archiveBilling", .post, "/billings/:id/archive/"⟩,
    ⟨"deleteBilling", .delete, "/billings/:id/"⟩ ]

/-- Path prefix that would address ledger rows; no frontend operation uses
it — every billings.ts path addresses the /billings/ source records. -/
def ledgerPath : String := "/ledger"

/-- Whether an operation addresses ledger data rather than billing source
records: does its path start with the ledger path prefix. -/
def targetsLedger (op : ApiOperation) : Bool :=
  ledgerPath.data.isPrefixOf op.path.data

/-- A batch as read by the billing form: the fields of
src/frontend/src/types/batch.ts that the summary uses.  Monetary strings are
represented by the exact rational value they denote; a null, undefined or
empty oem_transfer_price is `none` (the component guards it with a fallback
to the string for zero). -/
structure Batch where
  number_of_students : ℕ
  effective_cost_per_student : ℚ
  oem_transfer_price : Option ℚ
deriving DecidableEq

/-- The three summary fields the billing form displays. -/
structure Summary where
  totalStudents : ℕ
  totalAmount : ℚ
  totalOEMTransfer : ℚ
deriving DecidableEq

/-- The reduce callback of billingSummary (src/unnamed/part_002, lines
104-116), idealizing the JavaScript number arithmetic as exact rational
arithmetic; a missing oem_transfer_price contributes zero. -/
def summaryStep (summary : Summary) (batch : Batch) : Summary :=
  let batchTotal := (batch.number_of_students : ℚ) * batch.effective_cost_per_student
  { totalStudents := summary.totalStudents + batch.number_of_students,
    totalAmount := summary.totalAmount + batchTotal,
    totalOEMTransfer := summary.totalOEMTransfer +
      (batch.number_of_students : ℚ) * (batch.oem_transfer_price.getD 0) }

/-- billingSummary (src/unnamed/part_002, lines 104-116): a reduce over the
selected batch details starting from all-zero totals. -/
def billingSummary (batches : List Batch) : Summary :=
  batches.foldl summaryStep ⟨0, 0, 0⟩

/-- The values of the billing form. -/
structure BillingFormValues where
  name : String
  batches : List String
  notes : Option String
deriving DecidableEq

/-- billingFormSchema (src/unnamed/part_002 lines 20-24, identically
src/unnamed/part_001 lines 17-21): name needs at least one character,
batches at least one entry; notes is optional. -/
def billingFormSchemaOk (v : BillingFormValues) : Bool :=
  decide (1 ≤ v.name.length) && decide (1 ≤ v.batches.length)

/-- The form's mode prop. -/
inductive Mode where
  | create
  | edit
deriving DecidableEq

/-- An API call the submission path can issue. -/
inductive BillingApiCall where
  | createBilling (data : BillingFormValues)
  | updateBilling (id : String) (data : BillingFormValues)
deriving DecidableEq

/-- The payload of a submission call. -/
def callData : BillingApiCall → BillingFormValues
  | .createBilling d => d
  | .updateBilling _ d => d

/-- onSubmit (src/unnamed/part_002 lines 77-102): in edit mode with a billing
present it calls updateBilling, otherwise createBilling. -/
def onSubmit (mode : Mode) (billing : Option String) (data : BillingFormValues) :
    List BillingApiCall :=
  match mode, billing with
  | Mode.edit, some id => [BillingApiCall.updateBilling id data]
  | _, _ => [BillingApiCall.createBilling data]

/-- form.handleSubmit with zodResolver(billingFormSchema): onSubmit runs only
when the schema accepts the values; otherwise no call is issued. -/
def handleSubmit (mode : Mode) (billing : Option String) (data : BillingFormValues) :
    List BillingApiCall :=
  if billingFormSchemaOk data then onSubmit mode billing data else []

/-!
A model of IEEE-754 binary64 arithmetic over integers, used to embed the
JavaScript number computations of the billing form (parseFloat followed by
number multiplication and addition).  A float is a canonical mantissa and an
exponent; `scaleLoop` brings a positive rational n/d into the mantissa range
[2^52, 2^53) and `flPos` rounds to nearest, ties to even.  The model covers
the normal range, which contains every value arising here.
-/

/-- A binary64 value: the rational m / 2^e with m = 0 or |m| in
[2^52, 2^53). -/
structure F64 where
  m : ℤ
  e : ℤ
deriving DecidableEq

/-- Bring n/d into mantissa range: returns (n1, d1, k) with n1/d1 = (n/d)*2^k
and n1/d1 in [2^52, 2^53). -/
def scaleLoop : ℕ → ℕ → ℕ → ℤ → (ℕ × ℕ × ℤ)
  | 0, n, d, k => (n, d, k)
  | fuel+1, n, d, k =>
    if n < 4503599627370496 * d then scaleLoop fuel (2 * n) d (k + 1)
    else if 9007199254740992 * d ≤ n then scaleLoop fuel n (2 * d) (k - 1)
    else (n, d, k)

/-- Round the positive rational n/d to the nearest binary64, ties to even. -/
def flPos (n d : ℕ) : F64 :=
  let p := scaleLoop 4000 n d 0
  let q := p.1 / p.2.1
  let r := p.1 % p.2.1
  let q2 := if 2 * r < p.2.1 then q
    else if p.2.1 < 2 * r then q + 1
    else if q % 2 = 0 then q else q + 1
  if q2 = 9007199254740992 then ⟨4503599627370496, p.2.2 - 1⟩ else ⟨(q2 : ℤ), p.2.2⟩

/-- Round the rational n/d to the nearest binary64. -/
def flRat (n : ℤ) (d : ℕ) : F64 :=
  if n = 0 then ⟨0, 0⟩
  else if 0 < n then flPos n.toNat d
  else
    let p := flPos (-n).toNat d
    ⟨-p.m, p.e⟩

/-- Round the dyadic rational m / 2^e to the nearest binary64. -/
def flDyadic (m : ℤ) (e : ℤ) : F64 :=
  if 0 ≤ e then flRat m (2 ^ e.toNat) else flRat (m * 2 ^ (-e).toNat) 1

/-- JavaScript number multiplication: exact product, then one rounding. -/
def f64Mul (a b : F64) : F64 := flDyadic (a.m * b.m) (a.e + b.e)

/-- JavaScript number addition: exact sum, then one rounding. -/
def f64Add (a b : F64) : F64 :=
  let e := max a.e b.e
  flDyadic (a.m * 2 ^ (e - a.e).toNat + b.m * 2 ^ (e - b.e).toNat) e

/-- The rational value of a binary64 number. -/
def F64.toRat (x : F64) : ℚ := (x.m : ℚ) / (2 : ℚ) ^ x.e

/-- The float zero. -/
def F64.zero : F64 := ⟨0, 0⟩

/-- The float of a small natural number (exact below 2^53). -/
def jsNat (n : ℕ) : F64 := flRat (n : ℤ) 1

/-- The exact value of a decimal numeral string as numerator over a power of
ten. -/
structure DecimalStr where
  num : ℤ
  den : ℕ
deriving DecidableEq

/-- The rational a decimal string denotes. -/
def DecimalStr.toRat (d : DecimalStr) : ℚ := (d.num : ℚ) / (d.den : ℚ)

/-- parseFloat on a decimal string: the nearest binary64 to its value. -/
def parseFloatD (d : DecimalStr) : F64 := flRat d.num d.den

/-- A batch as the form receives it over the wire: monetary fields are
decimal strings. -/
structure BatchStr where
  number_of_students : ℕ
  effective_cost_per_student : DecimalStr
  oem_transfer_price : Option DecimalStr
deriving DecidableEq

/-- The batch with its decimal strings read exactly. -/
def BatchStr.toBatch (b : BatchStr) : Batch :=
  ⟨b.number_of_students, b.effective_cost_per_student.toRat,
    b.oem_transfer_price.map DecimalStr.toRat⟩

/-- The summary fields as the browser holds them: JavaScript numbers. -/
structure SummaryF where
  totalStudents : ℕ
  totalAmount : F64
  totalOEMTransfer : F64
deriving DecidableEq

/-- The reduce callback of billingSummary under JavaScript binary64
semantics: parseFloat of each monetary string, then float multiplication and
accumulation; a missing oem_transfer_price falls back to the string for
zero. -/
def summaryStepF (summary : SummaryF) (batch : BatchStr) : SummaryF :=
  let cost := parseFloatD batch.effective_cost_per_student
  let batchTotal := f64Mul (jsNat batch.number_of_students) cost
  { totalStudents := summary.totalStudents + batch.number_of_students,
    totalAmount := f64Add summary.totalAmount batchTotal,
    totalOEMTransfer := f64Add summary.totalOEMTransfer
      (f64Mul (jsNat batch.number_of_students)
        (parseFloatD (batch.oem_transfer_price.getD ⟨0, 1⟩))) }

/-- billingSummary as the browser actually computes it, in binary64. -/
def billingSummaryF (batches : List BatchStr) : SummaryF :=
  batches.foldl summaryStepF ⟨0, F64.zero, F64.zero⟩

end Frontend

/-- Decidable equality for Except results, used to evaluate the model on
concrete inputs. -/
instance exceptDecidableEq {ε α : Type} [DecidableEq ε] [DecidableEq α] :
    DecidableEq (Except ε α) := fun x y =>
  match x, y with
  | .error a, .error b =>
    if h : a = b then isTrue (by rw [h]) else isFalse (by intro hc; cases hc; exact h rfl)
  | .error _, .ok _ => isFalse (by intro hc; cases hc)
  | .ok _, .error _ => isFalse (by intro hc; cases hc)
  | .ok a, .ok b =>
    if h : a = b then isTrue (by rw [h]) else isFalse (by intro hc; cases hc; exact h rfl)

namespace Ledger

/-- A small concrete account registry for concrete evaluations. -/
def demoAccounts : List Account :=
  [⟨"receivable", AccountKind.asset⟩, ⟨"revenue", AccountKind.revenue⟩]

/-- The code of the demo asset account. -/
def demoCode : String := "receivable"

/-- A concrete balanced invoice draft. -/
def demoDraft : TransactionDraft :=
  { source_type := "invoice", source_id := 42, effective_at := 1, reversal_of := none,
    lines := [⟨"receivable", Direction.debit, 1000⟩, ⟨"revenue", Direction.credit, 1000⟩] }

/-- The transaction the Writer persists for the demo draft on the empty
ledger. -/
def demoTx : LedgerTransaction := mkTx (initLedger demoAccounts) demoDraft

/-- The ledger after appending the demo draft to the empty ledger. -/
def demoState : LedgerState :=
  { accounts := demoAccounts, transactions := [demoTx], nextTxId := 1, nextSeq := 2 }

theorem demo_append : append (initLedger demoAccounts) demoDraft = .ok (demoState, demoTx) := by
  decide

theorem demo_reachable : Reachable demoState :=
  Reachable.step (Reachable.init demoAccounts (by decide)) (Step.append_ok demo_append)

/-- The demo draft as a source event enumerated for replay. -/
def demoEvent : SourceEvent :=
  { source_type := "invoice", source_id := 42, effective_at := 1, reversal_of := none,
    lines := demoDraft.lines }

theorem demo_rebuild : doRebuild (initLedger demoAccounts) [demoEvent] = .ok demoState := by
  decide

theorem demo_rebuild_again : doRebuild demoState [demoEvent] = .ok demoState := by
  decide

end Ledger

namespace Frontend

theorem summaryStep_foldl (bs : List Batch) : ∀ acc : Summary,
    bs.foldl summaryStep acc =
      ⟨acc.totalStudents + (bs.map (fun b => b.number_of_students)).sum,
       acc.totalAmount
         + (bs.map (fun b => (b.number_of_students : ℚ) * b.effective_cost_per_student)).sum,
       acc.totalOEMTransfer
         + (bs.map (fun b => (b.number_of_students : ℚ) * (b.oem_transfer_price.getD 0))).sum⟩ := by
  induction bs with
  | nil =>
    intro acc
    cases acc
    simp
  | cons b bs ih =>
    intro acc
    simp only [List.foldl_cons, ih, List.map_cons, List.sum_cons, summaryStep]
    rw [Summary.mk.injEq]
    refine ⟨by omega, by ring, by ring⟩

end Frontend

/-- C1: for every transaction persisted in a reachable ledger state, the sum
of the amounts of its debit lines equals the sum of the amounts of its credit
lines; the invariant is enforced at append and preserved by every operation,
never restored by later repair. -/
theorem c1_balance_law {s : Ledger.LedgerState} (hs : Ledger.Reachable s) :
    ∀ t ∈ s.transactions, Ledger.txDebitTotal t = Ledger.txCreditTotal t :=
  (Ledger.reachable_wf hs).balanced

/-- Witness for C1 at a concrete reachable one-transaction state. -/
theorem c1_balance_law_witness :
    Ledger.txDebitTotal Ledger.demoTx = Ledger.txCreditTotal Ledger.demoTx :=
  c1_balance_law Ledger.demo_reachable Ledger.demoTx (by decide)

/-- C2: every operation of the ledger subsystem either appends exactly one
transaction, leaving all existing rows untouched, or is a full rebuild, whose
replay starts from the truncated ledger; and the frontend billing API exposes
no operation addressing ledger data — its update and delete operations
address only the /billings/ source records. -/
theorem c2_append_only :
    (∀ s s1 : Ledger.LedgerState, Ledger.Step s s1 →
      (∃ t, s1.transactions = s.transactions ++ [t]) ∨
      ∃ evs, Ledger.rebuildLedger s.accounts evs = .ok s1) ∧
    ∀ op ∈ Frontend.billingApiOperations, Frontend.targetsLedger op = false := by
  constructor
  · intro s s1 hstep
    cases hstep with
    | append_ok h =>
      rw [Ledger.append_ok_iff] at h
      exact Or.inl ⟨_, by rw [h.2.2.2.2.2]⟩
    | reverse_ok h =>
      obtain ⟨t0, -, -, ha⟩ := Ledger.reverse_ok_elim h
      rw [Ledger.append_ok_iff] at ha
      exact Or.inl ⟨_, by rw [ha.2.2.2.2.2]⟩
    | rebuild_ok h =>
      exact Or.inr ⟨_, h⟩
  · decide

/-- Witness for C2 at a concrete append step. -/
theorem c2_append_only_witness :
    (∃ t, Ledger.demoState.transactions
        = (Ledger.initLedger Ledger.demoAccounts).transactions ++ [t]) ∨
    ∃ evs, Ledger.rebuildLedger (Ledger.initLedger Ledger.demoAccounts).accounts evs
        = .ok Ledger.demoState :=
  c2_append_only.1 _ _ (Ledger.Step.append_ok Ledger.demo_append)

/-- C3: the balance the projector answers is a pure derivation over the
transaction log: it depends on nothing but the log (in particular on no
stored balance field, since the state carries none), and it equals the
explicit left fold of the signed per-transaction contributions up to the
cutoff. -/
theorem c3_balance_pure_projection (s1 s2 : Ledger.LedgerState) (code : String) (asOf : ℕ)
    (h : s1.transactions = s2.transactions) :
    Ledger.balance s1 code asOf = Ledger.balance s2 code asOf ∧
    Ledger.balance s1 code asOf
      = (s1.transactions.filter (fun t => decide (t.created_at ≤ asOf))).foldl
          (fun acc t => acc + Ledger.linesContribution t.lines code) 0 := by
  constructor
  · unfold Ledger.balance
    rw [h]
  · unfold Ledger.balance
    rw [List.sum_eq_foldl, List.foldl_map]

/-- Witness for C3 at a concrete state and cutoff. -/
theorem c3_balance_pure_projection_witness :
    Ledger.balance Ledger.demoState Ledger.demoCode 5
        = Ledger.balance Ledger.demoState Ledger.demoCode 5 ∧
    Ledger.balance Ledger.demoState Ledger.demoCode 5
      = (Ledger.demoState.transactions.filter (fun t => decide (t.created_at ≤ 5))).foldl
          (fun acc t => acc + Ledger.linesContribution t.lines Ledger.demoCode) 0 :=
  c3_balance_pure_projection Ledger.demoState Ledger.demoState Ledger.demoCode 5 rfl

/-- C4: append validates in order — fewer than two lines, a non-positive
amount, and a debit/credit mismatch each yield ImbalancedTransactionError
before accounts are checked; an unknown account on an otherwise valid draft
yields UnknownAccountError; every failure is one of those two errors; and a
success appends exactly the drafted transaction, touching nothing else. -/
theorem c4_append_validation (s : Ledger.LedgerState) (d : Ledger.TransactionDraft) :
    (d.lines.length < 2 → Ledger.append s d = .error .imbalancedTransaction) ∧
    (2 ≤ d.lines.length → (∃ l ∈ d.lines, l.amount ≤ 0) →
      Ledger.append s d = .error .imbalancedTransaction) ∧
    (2 ≤ d.lines.length → (∀ l ∈ d.lines, 0 < l.amount) →
      Ledger.debitTotal d.lines ≠ Ledger.creditTotal d.lines →
      Ledger.append s d = .error .imbalancedTransaction) ∧
    (2 ≤ d.lines.length → (∀ l ∈ d.lines, 0 < l.amount) →
      Ledger.debitTotal d.lines = Ledger.creditTotal d.lines →
      (∃ l ∈ d.lines, Ledger.accountExists s l.account_code = false) →
      Ledger.append s d = .error .unknownAccount) ∧
    (∀ e, Ledger.append s d = .error e →
      e = .imbalancedTransaction ∨ e = .unknownAccount) ∧
    ∀ s1 t, Ledger.append s d = .ok (s1, t) →
      s1.transactions = s.transactions ++ [t] ∧ s1.accounts = s.accounts ∧
      t = Ledger.mkTx s d := by
  refine ⟨?_, ?_, ?_, ?_, ?_, ?_⟩
  · intro h
    simp [Ledger.append, h]
  · intro hlen hex
    have h2 : (d.lines.any (fun l => decide (l.amount ≤ 0))) = true := by
      simp only [List.any_eq_true, decide_eq_true_eq]
      exact hex
    simp [Ledger.append, Nat.not_lt.mpr hlen, h2]
  · intro hlen hpos hbal
    have h2 : (d.lines.any (fun l => decide (l.amount ≤ 0))) = false := by
      simp only [List.any_eq_false, decide_eq_true_eq]
      intro l hl
      exact Int.not_le.mpr (hpos l hl)
    simp [Ledger.append, Nat.not_lt.mpr hlen, h2, hbal]
  · intro hlen hpos hbal hmiss
    have h2 : (d.lines.any (fun l => decide (l.amount ≤ 0))) = false := by
      simp only [List.any_eq_false, decide_eq_true_eq]
      intro l hl
      exact Int.not_le.mpr (hpos l hl)
    have h4 : (d.lines.any (fun l => !Ledger.accountExists s l.account_code)) = true := by
      simp only [List.any_eq_true, Bool.not_eq_true']
      exact hmiss
    simp [Ledger.append, Nat.not_lt.mpr hlen, h2, hbal, h4]
  · intro e h
    unfold Ledger.append at h
    split at h
    · simp only [Except.error.injEq] at h
      exact Or.inl h.symm
    · split at h
      · simp only [Except.error.injEq] at h
        exact Or.inl h.symm
      · split at h
        · simp only [Except.error.injEq] at h
          exact Or.inl h.symm
        · split at h
          · simp only [Except.error.injEq] at h
            exact Or.inr h.symm
          · simp at h
  · intro s1 t h
    rw [Ledger.append_ok_iff] at h
    obtain ⟨-, -, -, -, ht, hs1⟩ := h
    subst ht
    subst hs1
    exact ⟨rfl, rfl, rfl⟩

/-- Witness for C4: a one-line draft is rejected as imbalanced. -/
theorem c4_append_validation_witness :
    Ledger.append (Ledger.initLedger Ledger.demoAccounts)
      { source_type := "invoice", source_id := 1, effective_at := 1, reversal_of := none,
        lines := [⟨"receivable", Ledger.Direction.debit, 5⟩] }
      = .error .imbalancedTransaction :=
  (c4_append_validation _ _).1 (by decide)

/-- C5: a completed full rebuild is idempotent and deterministic: running it
again over the same source events from the rebuilt state reproduces the very
same ledger — the same transaction list (hence the same ordering of
reversal-versus-original pairs), the same transaction and line counts, and
the same balance for every account at every cutoff. -/
theorem c5_rebuild_deterministic {s s1 s2 : Ledger.LedgerState}
    {evs : List Ledger.SourceEvent}
    (h1 : Ledger.doRebuild s evs = .ok s1) (h2 : Ledger.doRebuild s1 evs = .ok s2) :
    s2 = s1 ∧ s2.transactions.length = s1.transactions.length ∧
    Ledger.totalLines s2 = Ledger.totalLines s1 ∧
    ∀ code asOf, Ledger.balance s2 code asOf = Ledger.balance s1 code asOf := by
  have h3 := Ledger.doRebuild_idem h1
  rw [h3] at h2
  have heq : s1 = s2 := by
    simpa using h2
  subst heq
  exact ⟨rfl, rfl, rfl, fun _ _ => rfl⟩

/-- Witness for C5: two consecutive rebuilds over one concrete event. -/
theorem c5_rebuild_deterministic_witness :
    Ledger.demoState = Ledger.demoState ∧
    Ledger.demoState.transactions.length = Ledger.demoState.transactions.length ∧
    Ledger.totalLines Ledger.demoState = Ledger.totalLines Ledger.demoState ∧
    ∀ code asOf, Ledger.balance Ledger.demoState code asOf
        = Ledger.balance Ledger.demoState code asOf :=
  c5_rebuild_deterministic Ledger.demo_rebuild Ledger.demo_rebuild_again

/-- C6: the trial balance — the sum of all account balances — of every
reachable ledger state is zero at every cutoff; it is a standing invariant
preserved by every operation, not only a post-rebuild check. -/
theorem c6_trial_balance_zero {s : Ledger.LedgerState} (hs : Ledger.Reachable s)
    (asOf : ℕ) : Ledger.trialBalance s asOf = 0 :=
  Ledger.trialBalance_zero_of_wf (Ledger.reachable_wf hs) asOf

/-- Witness for C6 at a concrete reachable state and cutoff. -/
theorem c6_trial_balance_zero_witness : Ledger.trialBalance Ledger.demoState 7 = 0 :=
  c6_trial_balance_zero Ledger.demo_reachable 7

/-- C7: reversing an existing, not-yet-reversed transaction succeeds and
appends a transaction whose lines are exactly the original's with direction
flipped — same accounts, same amounts — with reversal_of set to the
original, so the combined contribution of the pair to every account is
zero. -/
theorem c7_reversal_law {s : Ledger.LedgerState} {t : Ledger.LedgerTransaction}
    (hs : Ledger.Reachable s) (ht : t ∈ s.transactions)
    (hnr : Ledger.alreadyReversed s t.id = false) :
    ∃ s1 t1, Ledger.reverse s t.id = .ok (s1, t1) ∧
      t1.reversal_of = some t.id ∧
      t1.lines.map (fun l => (l.account_code, l.direction, l.amount))
        = t.lines.map (fun l => (l.account_code, Ledger.flipDirection l.direction, l.amount)) ∧
      ∀ code, Ledger.linesContribution t1.lines code
          + Ledger.linesContribution t.lines code = 0 := by
  have hwf := Ledger.reachable_wf hs
  refine ⟨_, _, Ledger.reverse_ok_of hwf ht hnr, rfl, ?_, ?_⟩
  · show (Ledger.mkLines _ _ (Ledger.reverseDraft t).lines).map _ = _
    rw [Ledger.mkLines_proj]
    simp only [Ledger.reverseDraft, List.map_map]
    rfl
  · intro code
    show Ledger.linesContribution (Ledger.mkLines _ _ (Ledger.reverseDraft t).lines) code + _ = 0
    rw [Ledger.mkLines_contribution]
    simp only [Ledger.reverseDraft]
    rw [Ledger.draftContribution_flip]
    ring

/-- Witness for C7: reversing the concrete demo transaction. -/
theorem c7_reversal_law_witness :
    ∃ s1 t1, Ledger.reverse Ledger.demoState Ledger.demoTx.id = .ok (s1, t1) ∧
      t1.reversal_of = some Ledger.demoTx.id ∧
      t1.lines.map (fun l => (l.account_code, l.direction, l.amount))
        = Ledger.demoTx.lines.map
            (fun l => (l.account_code, Ledger.flipDirection l.direction, l.amount)) ∧
      ∀ code, Ledger.linesContribution t1.lines code
          + Ledger.linesContribution Ledger.demoTx.lines code = 0 :=
  c7_reversal_law Ledger.demo_reachable (by decide) (by decide)

/-- C8 counterexample: the claim that every monetary amount is handled as an
exact fixed-point decimal with no floating-point representation entails that
the billing summary the browser computes coincides with the exact decimal
result; at one batch of 3 students with cost string 0.1 the binary64
computation yields 0.30000000000000004, not 3/10. -/
theorem c8_counterexample :
    Frontend.F64.toRat (Frontend.billingSummaryF [⟨3, ⟨1, 10⟩, none⟩]).totalAmount
      ≠ (Frontend.billingSummary [Frontend.BatchStr.toBatch ⟨3, ⟨1, 10⟩, none⟩]).totalAmount := by
  have h1 : (Frontend.billingSummaryF [⟨3, ⟨1, 10⟩, none⟩]).totalAmount
      = ⟨5404319552844596, 54⟩ := by decide
  have h2 : (Frontend.billingSummary [Frontend.BatchStr.toBatch ⟨3, ⟨1, 10⟩, none⟩]).totalAmount
      = 3 / 10 := by
    simp [Frontend.billingSummary, Frontend.summaryStep, Frontend.BatchStr.toBatch,
      Frontend.DecimalStr.toRat]
    norm_num
  rw [h1, h2]
  unfold Frontend.F64.toRat
  norm_num

/-- C8 amended: amounts reach the frontend as fixed-point decimal strings,
but the billing form computes its monetary sums with parseFloat and binary64
number arithmetic: at 3 students times cost 0.1 the computed total is the
binary64 value 5404319552844596/2^54 = 1351079888211149/2^52, not the exact
3/10; on integer amounts in the exact range (2 students times cost 100) the
binary64 computation agrees with the exact one. -/
theorem c8_amended_float_summary :
    (Frontend.billingSummaryF [⟨3, ⟨1, 10⟩, none⟩]).totalAmount
        = ⟨5404319552844596, 54⟩ ∧
    Frontend.F64.toRat ⟨5404319552844596, 54⟩ = 1351079888211149 / 2 ^ 52 ∧
    (Frontend.billingSummary [Frontend.BatchStr.toBatch ⟨3, ⟨1, 10⟩, none⟩]).totalAmount
        = 3 / 10 ∧
    (1351079888211149 / 2 ^ 52 : ℚ) ≠ 3 / 10 ∧
    Frontend.F64.toRat (Frontend.billingSummaryF [⟨2, ⟨100, 1⟩, none⟩]).totalAmount
      = (Frontend.billingSummary [Frontend.BatchStr.toBatch ⟨2, ⟨100, 1⟩, none⟩]).totalAmount := by
  refine ⟨by decide, ?_, ?_, by norm_num, ?_⟩
  · unfold Frontend.F64.toRat
    norm_num
  · simp [Frontend.billingSummary, Frontend.summaryStep, Frontend.BatchStr.toBatch,
      Frontend.DecimalStr.toRat]
    norm_num
  · have h1 : (Frontend.billingSummaryF [⟨2, ⟨100, 1⟩, none⟩]).totalAmount
        = ⟨7036874417766400, 45⟩ := by decide
    have h2 : (Frontend.billingSummary [Frontend.BatchStr.toBatch ⟨2, ⟨100, 1⟩, none⟩]).totalAmount
        = 200 := by
      simp [Frontend.billingSummary, Frontend.summaryStep, Frontend.BatchStr.toBatch,
        Frontend.DecimalStr.toRat]
      norm_num
    rw [h1, h2]
    unfold Frontend.F64.toRat
    norm_num

/-- C9: the billing form submits nothing when the name is empty or no batch
is selected — the schema gate rejects the values and neither createBilling
nor updateBilling runs — and every call that is issued carries a non-empty
name and at least one batch. -/
theorem c9_form_validation (mode : Frontend.Mode) (billing : Option String)
    (v : Frontend.BillingFormValues) :
    ((v.name.length = 0 ∨ v.batches = []) → Frontend.handleSubmit mode billing v = []) ∧
    ∀ c ∈ Frontend.handleSubmit mode billing v,
      1 ≤ (Frontend.callData c).name.length ∧ (Frontend.callData c).batches ≠ [] := by
  constructor
  · intro h
    unfold Frontend.handleSubmit
    have hv : Frontend.billingFormSchemaOk v = false := by
      unfold Frontend.billingFormSchemaOk
      rcases h with h | h
      · simp [h]
      · simp [h]
    rw [hv]
    simp
  · intro c hc
    unfold Frontend.handleSubmit at hc
    by_cases hok : Frontend.billingFormSchemaOk v
    · rw [if_pos hok] at hc
      have hd : Frontend.callData c = v := by
        unfold Frontend.onSubmit at hc
        cases mode <;> cases billing <;> simp_all [Frontend.callData]
      rw [hd]
      unfold Frontend.billingFormSchemaOk at hok
      simp only [Bool.and_eq_true, decide_eq_true_eq] at hok
      refine ⟨hok.1, ?_⟩
      intro hempty
      rw [hempty] at hok
      simp at hok
    · rw [if_neg hok] at hc
      simp at hc

/-- Witness for C9: an empty form issues no API call. -/
theorem c9_form_validation_witness :
    Frontend.handleSubmit Frontend.Mode.create none ⟨"", [], none⟩ = [] :=
  (c9_form_validation Frontend.Mode.create none ⟨"", [], none⟩).1 (Or.inl rfl)

/-- C10: for every list of selected batches, the billing summary computes
totalStudents as the sum of number_of_students, totalAmount as the sum of
number_of_students times effective_cost_per_student, and totalOEMTransfer as
the sum of number_of_students times oem_transfer_price, a missing
oem_transfer_price contributing zero. -/
theorem c10_billing_summary (bs : List Frontend.Batch) :
    (Frontend.billingSummary bs).totalStudents
        = (bs.map (fun b => b.number_of_students)).sum ∧
    (Frontend.billingSummary bs).totalAmount
        = (bs.map (fun b => (b.number_of_students : ℚ) * b.effective_cost_per_student)).sum ∧
    (Frontend.billingSummary bs).totalOEMTransfer
        = (bs.map (fun b => (b.number_of_students : ℚ) * (b.oem_transfer_price.getD 0))).sum := by
  unfold Frontend.billingSummary
  rw [Frontend.summaryStep_foldl]
  simp
